import Mathlib

/-!
Shallow embedding of the minesweeper board engine
(src/minesweeper/src/board.rs) and proofs of the specification claims.

The Rust `Board` struct and its methods are translated field by field:
`HashSet<Position>` becomes `Finset Pos`, `HashMap<Position, u8>` becomes a
total function `Pos → Nat` where the value 0 stands for an absent entry
(the source only ever stores strictly positive counts), `Option<HashSet>`
becomes `Option (Finset Pos)`, and methods taking `&mut self` become
functions returning the result together with the updated board.  The
`BTreeSet<(usize, usize)>` frontier of the flood fill becomes a
lexicographically sorted duplicate-free list whose head plays the role of
`pop_first`.  Loops (`while` in `init_mines` and in the cascade) are
translated as fuel-indexed recursive functions returning `none` on fuel
exhaustion; sufficiency of the fuel actually supplied is proved.
-/

namespace Minesweeper

/-- Position: an (x, y) pair of usize coordinates, as in `type Position`. -/
abbrev Pos := Nat × Nat

/-- Game state enum, as in `enum GameState`. -/
inductive GameState where
  | Init
  | OnGoing
  | Lost
  | Won
deriving DecidableEq, Repr

/-- Error enum of `Board::open`, as in `enum OpenError`. -/
inductive OpenError where
  | AlreadyOpen
  | AlreadyFlagged
  | AlreadyLost
  | AlreadyWon
  | MinesNotInit
  | OutOfBounds
deriving DecidableEq, Repr

/-- Error enum of `Board::flag`, as in `enum FlagError`. -/
inductive FlagError where
  | AlreadyOpen
  | AlreadyLost
  | AlreadyWon
  | MinesNotInit
  | OutOfBounds
deriving DecidableEq, Repr

/-- View-only square enum, as in `enum Square`. -/
inductive Square where
  | Mine
  | Opened (count : Nat)
  | Flag
  | NotYetOpened
deriving DecidableEq, Repr

/-- The eight direction offsets, as in `const DIRS`. -/
def DIRS : List (Int × Int) :=
  [(1, 1), (1, 0), (1, -1), (0, -1), (-1, -1), (-1, 0), (-1, 1), (0, 1)]

/-- The board state, as in `struct Board`.  `counts` is the adjacency map
with absence encoded as 0 (the source never stores a zero entry). -/
structure Board where
  rows : Nat
  cols : Nat
  nr_mines : Nat
  mines : Option (Finset Pos)
  open_fields : Finset Pos
  flagged_fields : Finset Pos
  counts : Pos → Nat
  state : GameState

/-- Constructor, as in `Board::new` (its `assert!(rows * cols > nr_mines)`
is a fatal panic; theorems that rely on it carry it as a hypothesis). -/
def Board.new (rows cols nr_mines : Nat) : Board :=
  { rows := rows
    cols := cols
    nr_mines := nr_mines
    mines := none
    flagged_fields := ∅
    open_fields := ∅
    counts := fun _ => 0
    state := GameState.Init }

/-- In-bounds neighbor enumeration, as in `Board::iter_neighbors`; the
usize/isize conversions of the source become Nat/Int conversions. -/
def iter_neighbors (rows cols : Nat) (p : Pos) : List Pos :=
  (((DIRS.map fun d => ((p.1 : Int) + d.1, (p.2 : Int) + d.2)).filter
    fun q => decide (0 ≤ q.1 ∧ q.1 < (cols : Int) ∧ 0 ≤ q.2 ∧ q.2 < (rows : Int) ∧
      q ≠ ((p.1 : Int), (p.2 : Int)))).map fun q => (q.1.toNat, q.2.toNat))

/-- Adjacency counts, as in `Board::set_counts`: the count of a cell `n` is
the number of mines having `n` among their neighbors (the source builds
this map by incrementing each neighbor of each mine). -/
def set_counts (rows cols : Nat) (mines : Finset Pos) : Pos → Nat :=
  fun n => (mines.filter fun m => n ∈ iter_neighbors rows cols m).card

/-- Clearing of per-game fields, as in `Board::reset_board`. -/
def reset_board (b : Board) : Board :=
  { b with
    flagged_fields := ∅
    open_fields := ∅
    counts := fun _ => 0
    state := GameState.Init
    mines := none }

/-- Win check, as in `Board::check_win_condition`.  The source unwraps
`self.mines`; the unwrap is modelled by `Option.getD ∅`, and every theorem
about an OnGoing board assumes `mines = some M`. -/
def check_win_condition (b : Board) : GameState :=
  match b.state with
  | GameState.OnGoing =>
    if b.flagged_fields.card = b.nr_mines ∧
        b.open_fields.card + b.flagged_fields.card = b.cols * b.rows then
      if b.flagged_fields = b.mines.getD ∅ then GameState.Won else GameState.OnGoing
    else GameState.OnGoing
  | s => s

/-- Strict lexicographic order on positions: the comparison used by
`BTreeSet<(usize, usize)>` in the source. -/
def posLt (a b : Pos) : Prop := a.1 < b.1 ∨ (a.1 = b.1 ∧ a.2 < b.2)

instance (a b : Pos) : Decidable (posLt a b) := by
  unfold posLt; infer_instance

/-- Ordered duplicate-free insertion into the sorted list modelling the
`BTreeSet` frontier of the cascade. -/
def btInsert (p : Pos) : List Pos → List Pos
  | [] => [p]
  | q :: rest =>
    if p = q then q :: rest
    else if posLt p q then p :: q :: rest
    else q :: btInsert p rest

/-- The cascade loop of `Board::open` (the `while !next.is_empty()` loop):
`next` is the sorted frontier whose head is `pop_first`, `seen` is the
visited list, `toOpen` is the `to_open` vector.  The loop is fuel-indexed;
`none` means the fuel ran out (shown impossible for the fuel used). -/
def cascadeLoop (rows cols : Nat) (mines openF : Finset Pos) (counts : Pos → Nat) :
    Nat → List Pos → List Pos → List Pos → Option (List Pos × List Pos)
  | _, [], seen, toOpen => some (seen, toOpen)
  | 0, _ :: _, _, _ => none
  | Nat.succ f, n :: rest, seen, toOpen =>
    if n ∈ seen then cascadeLoop rows cols mines openF counts f rest seen toOpen
    else
      let seen1 := seen ++ [n]
      if n ∈ mines then cascadeLoop rows cols mines openF counts f rest seen1 toOpen
      else if n ∈ openF then cascadeLoop rows cols mines openF counts f rest seen1 toOpen
      else if counts n ≠ 0 then
        cascadeLoop rows cols mines openF counts f rest seen1 (toOpen ++ [n])
      else
        cascadeLoop rows cols mines openF counts f
          ((iter_neighbors rows cols n).foldl
            (fun acc i => if i ∉ seen1 ∧ i ∉ openF then btInsert i acc else acc) rest)
          seen1 (toOpen ++ [n])

/-- Fuel supplied to the cascade loop; proved sufficient. -/
def cascadeFuel (b : Board) : Nat :=
  (b.rows * b.cols + 9) * (b.rows * b.cols + 2)

/-- The mutation part of the open path of `Board::open`: insert `pos` into
`open_fields` and, when its count is zero (no `counts` entry), run the
cascade and bulk-insert the collected cells. -/
def openCascade (b : Board) (pos : Pos) : Board :=
  let b1 := { b with open_fields := insert pos b.open_fields }
  if b.counts pos = 0 then
    match cascadeLoop b.rows b.cols (b.mines.getD ∅) b1.open_fields b.counts
        (cascadeFuel b)
        (((iter_neighbors b.rows b.cols pos).filter
          fun p => decide (p ∉ b1.open_fields)).foldl (fun acc p => btInsert p acc) [])
        [] [] with
    | some (_, toOpen) =>
      { b1 with open_fields := toOpen.foldl (fun s p => insert p s) b1.open_fields }
    | none => b1
  else b1

/-- The opener, as in `Board::open` (`open` is a Lean keyword, hence the
name).  The `&mut self` receiver becomes an explicit result board; the
`self.open_fields.insert(pos)` returning `false` becomes the membership
test guarding the `AlreadyOpen` error. -/
def openPos (b : Board) (pos : Pos) : Except OpenError GameState × Board :=
  match b.state with
  | GameState.Lost => (Except.error OpenError.AlreadyLost, b)
  | GameState.Init => (Except.error OpenError.MinesNotInit, b)
  | GameState.Won => (Except.error OpenError.AlreadyWon, b)
  | GameState.OnGoing =>
    if b.cols ≤ pos.1 ∨ b.rows ≤ pos.2 then (Except.error OpenError.OutOfBounds, b)
    else if pos ∈ b.mines.getD ∅ then
      (Except.ok GameState.Lost, { b with state := GameState.Lost })
    else if pos ∈ b.flagged_fields then (Except.error OpenError.AlreadyFlagged, b)
    else if pos ∈ b.open_fields then (Except.error OpenError.AlreadyOpen, b)
    else
      let b2 := openCascade b pos
      if check_win_condition b2 = GameState.Won then
        (Except.ok GameState.Won, { b2 with state := GameState.Won })
      else (Except.ok GameState.OnGoing, b2)

/-- The flag toggler, as in `Board::flag`. -/
def flag (b : Board) (pos : Pos) : Except FlagError GameState × Board :=
  match b.state with
  | GameState.Lost => (Except.error FlagError.AlreadyLost, b)
  | GameState.Init => (Except.error FlagError.MinesNotInit, b)
  | GameState.Won => (Except.error FlagError.AlreadyWon, b)
  | GameState.OnGoing =>
    if b.cols ≤ pos.1 ∨ b.rows ≤ pos.2 then (Except.error FlagError.OutOfBounds, b)
    else if pos ∈ b.open_fields then (Except.error FlagError.AlreadyOpen, b)
    else if pos ∈ b.flagged_fields then
      (Except.ok GameState.OnGoing, { b with flagged_fields := b.flagged_fields.erase pos })
    else
      let b2 := { b with flagged_fields := insert pos b.flagged_fields }
      if check_win_condition b2 = GameState.Won then
        (Except.ok GameState.Won, { b2 with state := GameState.Won })
      else (Except.ok GameState.OnGoing, b2)

/-- Deterministic stand-in for the external `ChaCha8Rng` stream of the
`rand_chacha` crate.  The repository relies only on the stream being a
deterministic function of its 64-bit seed and on `random_range(0..n)`
returning a value below `n`; any concrete deterministic stream models
that contract. -/
abbrev RngS := Nat

/-- Stand-in for `ChaCha8Rng::seed_from_u64`. -/
def seedFromU64 (seed : Nat) : RngS := seed % 2 ^ 64

/-- One step of the modelled pseudorandom stream. -/
def rngNext (r : RngS) : RngS := (r * 25214903917 + 11) % 2 ^ 64

/-- Stand-in for `rng.random_range(0..n)`: a value below `n` (for `n > 0`)
together with the advanced stream. -/
def randomRange (r : RngS) (n : Nat) : Nat × RngS := (r % n, rngNext r)

/-- The rejection-sampling loop of `Board::init_mines`
(`while mines.len() < self.nr_mines`): draws an x below `cols` then a y
below `rows`, inserting the pair unless it equals `start`.  Fuel-indexed;
`none` means the loop has not finished within `fuel` iterations. -/
def sampleLoop (cols rows nrMines : Nat) (start : Pos) :
    Nat → Finset Pos → RngS → Option (Finset Pos × RngS)
  | fuel, M, rng =>
    if M.card < nrMines then
      match fuel with
      | 0 => none
      | Nat.succ f =>
        let xr := randomRange rng cols
        let yr := randomRange xr.2 rows
        sampleLoop cols rows nrMines start f
          (if (xr.1, yr.1) ≠ start then insert (xr.1, yr.1) M else M) yr.2
    else some (M, rng)

/-- Mine generation, as in `Board::init_mines`.  `seed = some s` models
`Some(seed)`; `osRng` is the stream drawn from the OS in the `None` branch.
The result is `none` when the sampling loop has not finished within `fuel`
steps, `some (Except.error e)` when the trailing
`self.open(start_position).unwrap()` would panic with `e`, and
`some (Except.ok b)` for a normal return. -/
def init_mines_with (b : Board) (start : Pos) (rng : RngS) (fuel : Nat) :
    Option (Except OpenError Board) :=
  match sampleLoop b.cols b.rows b.nr_mines start fuel ∅ rng with
  | none => none
  | some (M, _) =>
    let b1 := reset_board b
    let b2 := { b1 with
      mines := some M
      state := GameState.OnGoing
      counts := set_counts b.rows b.cols M }
    match openPos b2 start with
    | (Except.ok _, b3) => some (Except.ok b3)
    | (Except.error e, _) => some (Except.error e)

def init_mines (b : Board) (start : Pos) (seed : Option Nat) (osRng : RngS)
    (fuel : Nat) : Option (Except OpenError Board) :=
  init_mines_with b start
    (match seed with
      | some s => seedFromU64 s
      | none => osRng) fuel

/-- A single engine call, for stating determinism over move sequences. -/
inductive Move where
  | openMove (p : Pos)
  | flagMove (p : Pos)

/-- Application of a sequence of open/flag calls, discarding the returned
results as a caller replaying a recorded game would. -/
def applyMoves (b : Board) (moves : List Move) : Board :=
  moves.foldl
    (fun st m => match m with
      | Move.openMove p => (openPos st p).2
      | Move.flagMove p => (flag st p).2) b

/-- Cell write into the row-major `Vec<Vec<Square>>` grid:
`map[y][x] = sq`, a no-op out of range (in-range use is proved). -/
def setCell (g : List (List Square)) (y x : Nat) (sq : Square) : List (List Square) :=
  g.set y ((g.getD y []).set x sq)

/-- Cell read from the grid: `some` exactly in range. -/
def getCell (g : List (List Square)) (x y : Nat) : Option Square :=
  (g.getD y [])[x]?

/-- One pass of `get_board_state`: iterate over a set of positions and
write the square `v p` at each, as the three `for` loops of the source
do. -/
def paintPass (v : Pos → Square) (l : List Pos) (g : List (List Square)) :
    List (List Square) :=
  l.foldl (fun gg p => setCell gg p.2 p.1 (v p)) g

/-- Non-strict lexicographic order on positions, used to enumerate a
`Finset` computably. -/
def posLe (a b : Pos) : Prop := a.1 < b.1 ∨ (a.1 = b.1 ∧ a.2 ≤ b.2)

instance (a b : Pos) : Decidable (posLe a b) := by
  unfold posLe; infer_instance

instance : IsTrans Pos posLe := by
  constructor; intro a b c hab hbc
  unfold posLe at *; omega

instance : IsAntisymm Pos posLe := by
  constructor; intro a b hab hba
  unfold posLe at *
  have h1 : a.1 = b.1 := by omega
  have h2 : a.2 = b.2 := by omega
  exact Prod.ext h1 h2

instance : IsTotal Pos posLe := by
  constructor; intro a b
  unfold posLe; omega

/-- Enumeration of a `Finset` as a list.  A `HashSet` is iterated in an
arbitrary order in the source; the writes performed by each projection
pass commute across distinct cells, so a fixed enumeration order is
faithful (the pointwise projection theorem depends only on membership). -/
def toL (s : Finset Pos) : List Pos := s.sort posLe

/-- The projection, as in `Board::get_board_state`: a rows×cols grid of
`NotYetOpened`, then (outside Init) the opened pass, the Lost-only mine
pass and finally the flag pass, in source order so later writes win. -/
def get_board_state (b : Board) : List (List Square) :=
  let map0 := List.replicate b.rows (List.replicate b.cols Square.NotYetOpened)
  if b.state = GameState.Init then map0
  else
    let map1 := paintPass (fun p => Square.Opened (b.counts p)) (toL b.open_fields) map0
    let map2 :=
      if b.state = GameState.Lost then
        paintPass (fun _ => Square.Mine) (toL (b.mines.getD ∅)) map1
      else map1
    paintPass (fun _ => Square.Flag) (toL b.flagged_fields) map2

/-- The per-cell value the specification of §4.5 describes for the
projection: flag over revealed mine over opened count over unopened. -/
def projSquareSpec (b : Board) (p : Pos) : Square :=
  if b.state = GameState.Init then Square.NotYetOpened
  else if p ∈ b.flagged_fields then Square.Flag
  else if b.state = GameState.Lost ∧ p ∈ b.mines.getD ∅ then Square.Mine
  else if p ∈ b.open_fields then Square.Opened (b.counts p)
  else Square.NotYetOpened

/-- A freshly initialized 7×1 board with one mine at (3,0), as produced by
`init_mines` with a stream placing the mine there: reachable state used to
exhibit concrete behavior of the cascade. -/
def demoBug : Board :=
  { rows := 1, cols := 7, nr_mines := 1, mines := some {(3, 0)},
    open_fields := ∅, flagged_fields := ∅,
    counts := set_counts 1 7 {(3, 0)}, state := GameState.OnGoing }

/-- A lost 1×1 board, for exercising the terminal-state error paths. -/
def demoLost : Board :=
  { Board.new 1 1 0 with state := GameState.Lost }

/-- A 2×1 board one flag away from winning: the mine at (0,0) is unflagged
and the only other cell is open. -/
def demoWinFlag : Board :=
  { rows := 1, cols := 2, nr_mines := 1, mines := some {(0, 0)},
    open_fields := {(1, 0)}, flagged_fields := ∅,
    counts := set_counts 1 2 {(0, 0)}, state := GameState.OnGoing }

/-- A fresh 2×1 OnGoing board with a mine at (0,0), nothing opened or
flagged: used to exercise the flag toggle. -/
def demoToggle : Board :=
  { rows := 1, cols := 2, nr_mines := 1, mines := some {(0, 0)},
    open_fields := ∅, flagged_fields := ∅,
    counts := set_counts 1 2 {(0, 0)}, state := GameState.OnGoing }

/-- A lost 2×1 board whose mine at (0,0) is also flagged, for exercising
the projection precedence. -/
def demoProj : Board :=
  { rows := 1, cols := 2, nr_mines := 1, mines := some {(0, 0)},
    open_fields := {(1, 0)}, flagged_fields := {(0, 0)},
    counts := set_counts 1 2 {(0, 0)}, state := GameState.Lost }

/-- The board produced by `init_mines (Board.new 2 2 1) (0,0) (some 0)`
under the modelled stream: mine at (0,1), start cell opened. -/
def demoInitResult : Board :=
  { rows := 2, cols := 2, nr_mines := 1, mines := some {(0, 1)},
    open_fields := {(0, 0)}, flagged_fields := ∅,
    counts := set_counts 2 2 {(0, 1)}, state := GameState.OnGoing }

theorem openCascade_state (b : Board) (pos : Pos) :
    (openCascade b pos).state = b.state := by
  unfold openCascade
  dsimp only
  split
  · split <;> rfl
  · rfl

theorem openCascade_flagged (b : Board) (pos : Pos) :
    (openCascade b pos).flagged_fields = b.flagged_fields := by
  unfold openCascade
  dsimp only
  split
  · split <;> rfl
  · rfl

theorem openCascade_mines (b : Board) (pos : Pos) :
    (openCascade b pos).mines = b.mines := by
  unfold openCascade
  dsimp only
  split
  · split <;> rfl
  · rfl

theorem openCascade_counts (b : Board) (pos : Pos) :
    (openCascade b pos).counts = b.counts := by
  unfold openCascade
  dsimp only
  split
  · split <;> rfl
  · rfl

theorem openCascade_dims (b : Board) (pos : Pos) :
    (openCascade b pos).rows = b.rows ∧ (openCascade b pos).cols = b.cols ∧
      (openCascade b pos).nr_mines = b.nr_mines := by
  unfold openCascade
  dsimp only
  split
  · split <;> exact ⟨rfl, rfl, rfl⟩
  · exact ⟨rfl, rfl, rfl⟩

theorem openPos_mines (b : Board) (pos : Pos) :
    ((openPos b pos).2).mines = b.mines := by
  unfold openPos
  cases b.state <;> dsimp only
  case OnGoing =>
    split
    · rfl
    · split
      · rfl
      · split
        · rfl
        · split
          · rfl
          · split <;> exact openCascade_mines b pos

theorem flag_mines (b : Board) (pos : Pos) :
    ((flag b pos).2).mines = b.mines := by
  unfold flag
  cases b.state <;> dsimp only
  case OnGoing =>
    split
    · rfl
    · split
      · rfl
      · split
        · rfl
        · split <;> rfl

/-- Claim C10: errors are atomic — whenever `open` or `flag` returns an
`Err` value, every field of the board is exactly as it was before the
call (the result board is the input board). -/
theorem error_atomicity (b : Board) (pos : Pos) :
    (∀ e, (openPos b pos).1 = Except.error e → (openPos b pos).2 = b) ∧
    (∀ e, (flag b pos).1 = Except.error e → (flag b pos).2 = b) := by
  constructor
  · intro e h
    rcases hst : b.state
    case Lost => simp only [openPos, hst]
    case Init => simp only [openPos, hst]
    case Won => simp only [openPos, hst]
    case OnGoing =>
      simp only [openPos, hst] at h ⊢
      by_cases h1 : b.cols ≤ pos.1 ∨ b.rows ≤ pos.2
      · simp only [if_pos h1]
      · simp only [if_neg h1] at h ⊢
        by_cases h2 : pos ∈ b.mines.getD ∅
        · rw [if_pos h2] at h; exact Except.noConfusion h
        · simp only [if_neg h2] at h ⊢
          by_cases h3 : pos ∈ b.flagged_fields
          · simp only [if_pos h3]
          · simp only [if_neg h3] at h ⊢
            by_cases h4 : pos ∈ b.open_fields
            · simp only [if_pos h4]
            · simp only [if_neg h4] at h
              split at h <;> exact Except.noConfusion h
  · intro e h
    rcases hst : b.state
    case Lost => simp only [flag, hst]
    case Init => simp only [flag, hst]
    case Won => simp only [flag, hst]
    case OnGoing =>
      simp only [flag, hst] at h ⊢
      by_cases h1 : b.cols ≤ pos.1 ∨ b.rows ≤ pos.2
      · simp only [if_pos h1]
      · simp only [if_neg h1] at h ⊢
        by_cases h2 : pos ∈ b.open_fields
        · simp only [if_pos h2]
        · simp only [if_neg h2] at h ⊢
          by_cases h3 : pos ∈ b.flagged_fields
          · rw [if_pos h3] at h; exact Except.noConfusion h
          · rw [if_neg h3] at h
            split at h <;> exact Except.noConfusion h

/-- Claim C10 witness: opening on a lost board errors and leaves the board
untouched. -/
theorem error_atomicity_witness : (openPos demoLost (0, 0)).2 = demoLost :=
  (error_atomicity demoLost (0, 0)).1 OpenError.AlreadyLost rfl

/-- Claim C2: `open` checks its cases in order — Lost, Init, Won, then for
OnGoing: out of bounds, mine (losing without inserting the cell into
`open_fields`), flagged, already open; a flagged mine therefore loses
rather than erroring, and the losing mine cell is never in `open_fields`. -/
theorem open_error_order (b : Board) (pos : Pos) :
    (b.state = GameState.Lost →
      openPos b pos = (Except.error OpenError.AlreadyLost, b)) ∧
    (b.state = GameState.Init →
      openPos b pos = (Except.error OpenError.MinesNotInit, b)) ∧
    (b.state = GameState.Won →
      openPos b pos = (Except.error OpenError.AlreadyWon, b)) ∧
    (b.state = GameState.OnGoing → (b.cols ≤ pos.1 ∨ b.rows ≤ pos.2) →
      openPos b pos = (Except.error OpenError.OutOfBounds, b)) ∧
    (b.state = GameState.OnGoing → pos.1 < b.cols → pos.2 < b.rows →
      pos ∈ b.mines.getD ∅ →
      openPos b pos = (Except.ok GameState.Lost, { b with state := GameState.Lost })) ∧
    (b.state = GameState.OnGoing → pos.1 < b.cols → pos.2 < b.rows →
      pos ∉ b.mines.getD ∅ → pos ∈ b.flagged_fields →
      openPos b pos = (Except.error OpenError.AlreadyFlagged, b)) ∧
    (b.state = GameState.OnGoing → pos.1 < b.cols → pos.2 < b.rows →
      pos ∉ b.mines.getD ∅ → pos ∉ b.flagged_fields → pos ∈ b.open_fields →
      openPos b pos = (Except.error OpenError.AlreadyOpen, b)) ∧
    (b.state = GameState.OnGoing → pos ∈ b.mines.getD ∅ → pos ∉ b.open_fields →
      pos ∉ ((openPos b pos).2).open_fields) := by
  refine ⟨?_, ?_, ?_, ?_, ?_, ?_, ?_, ?_⟩
  · intro h; simp only [openPos, h]
  · intro h; simp only [openPos, h]
  · intro h; simp only [openPos, h]
  · intro hst h1; simp only [openPos, hst, if_pos h1]
  · intro hst hx hy h2
    have h1 : ¬(b.cols ≤ pos.1 ∨ b.rows ≤ pos.2) := by omega
    simp only [openPos, hst, if_neg h1, if_pos h2]
  · intro hst hx hy h2 h3
    have h1 : ¬(b.cols ≤ pos.1 ∨ b.rows ≤ pos.2) := by omega
    simp only [openPos, hst, if_neg h1, if_neg h2, if_pos h3]
  · intro hst hx hy h2 h3 h4
    have h1 : ¬(b.cols ≤ pos.1 ∨ b.rows ≤ pos.2) := by omega
    simp only [openPos, hst, if_neg h1, if_neg h2, if_neg h3, if_pos h4]
  · intro hst h2 hnot
    simp only [openPos, hst]
    by_cases h1 : b.cols ≤ pos.1 ∨ b.rows ≤ pos.2
    · simp only [if_pos h1]; exact hnot
    · simp only [if_neg h1, if_pos h2]; exact hnot

/-- Claim C2 witness: the Lost-state error and the losing open on a mine,
at concrete boards. -/
theorem open_error_order_witness :
    openPos demoLost (0, 0) = (Except.error OpenError.AlreadyLost, demoLost) ∧
    openPos demoBug (3, 0) =
      (Except.ok GameState.Lost, { demoBug with state := GameState.Lost }) :=
  ⟨(open_error_order demoLost (0, 0)).1 rfl,
   (open_error_order demoBug (3, 0)).2.2.2.2.1 rfl (by decide) (by decide) (by decide)⟩

/-- Claim C8: flagging then unflagging an unopened, unflagged, in-bounds
cell of an OnGoing board (with no win triggered by the first call) returns
`Ok(OnGoing)` both times — the second unconditionally — and restores the
board, hence `open_fields`, `flagged_fields` and `counts`, exactly. -/
theorem flag_unflag (b : Board) (pos : Pos)
    (hst : b.state = GameState.OnGoing)
    (hx : pos.1 < b.cols) (hy : pos.2 < b.rows)
    (hop : pos ∉ b.open_fields) (hfl : pos ∉ b.flagged_fields)
    (hw : (flag b pos).1 = Except.ok GameState.OnGoing) :
    (flag b pos).1 = Except.ok GameState.OnGoing ∧
    flag (flag b pos).2 pos = (Except.ok GameState.OnGoing, b) := by
  obtain ⟨br, bc, bm, bmi, bo, bf, bcnt, bst⟩ := b
  dsimp only at hst hx hy hop hfl
  subst hst
  have h1 : ¬(bc ≤ pos.1 ∨ br ≤ pos.2) := by omega
  refine ⟨hw, ?_⟩
  simp only [flag] at hw ⊢
  rw [if_neg h1] at hw ⊢
  rw [if_neg hop] at hw ⊢
  rw [if_neg hfl] at hw ⊢
  by_cases h5 : check_win_condition
      ⟨br, bc, bm, bmi, bo, insert pos bf, bcnt, GameState.OnGoing⟩ = GameState.Won
  · rw [if_pos h5] at hw
    exact absurd (Except.ok.inj hw) (by simp)
  · rw [if_neg h5]
    simp only [flag]
    rw [if_neg h1, if_neg hop, if_pos (Finset.mem_insert_self pos bf),
      Finset.erase_insert hfl]

/-- Claim C8 witness: the toggle pair at a concrete board. -/
theorem flag_unflag_witness :
    flag (flag demoToggle (1, 0)).2 (1, 0) = (Except.ok GameState.OnGoing, demoToggle) :=
  (flag_unflag demoToggle (1, 0) rfl (by decide) (by decide) (by decide) (by decide) rfl).2

/-- Claim C4: two boards built with the same dimensions and mine target,
initialized with the same explicit seed and start position, receive the
same mine set, and after the same sequence of open/flag calls their
`open_fields` sets coincide — independently of the OS entropy streams. -/
theorem seeded_determinism (r c m : Nat) (start : Pos) (seed fuel : Nat)
    (r1 r2 : RngS) (moves : List Move) (c1 c2 : Board)
    (h1 : init_mines (Board.new r c m) start (some seed) r1 fuel = some (Except.ok c1))
    (h2 : init_mines (Board.new r c m) start (some seed) r2 fuel = some (Except.ok c2)) :
    c1.mines = c2.mines ∧
    (applyMoves c1 moves).open_fields = (applyMoves c2 moves).open_fields := by
  have hsame : init_mines (Board.new r c m) start (some seed) r1 fuel =
      init_mines (Board.new r c m) start (some seed) r2 fuel := rfl
  rw [h1, h2] at hsame
  have : c1 = c2 := by
    injection hsame with h
    injection h
  subst this
  exact ⟨rfl, rfl⟩

/-- Claim C4 witness: a concrete seeded run with two distinct OS streams. -/
theorem seeded_determinism_witness :
    demoInitResult.mines = demoInitResult.mines ∧
    (applyMoves demoInitResult []).open_fields =
      (applyMoves demoInitResult []).open_fields :=
  seeded_determinism 2 2 1 (0, 0) 0 5 0 1 [] demoInitResult demoInitResult rfl rfl

theorem sampleLoop_spec (cols rows nrMines : Nat) (start : Pos) :
    ∀ (fuel : Nat) (M : Finset Pos) (rng : RngS) (Mf : Finset Pos) (rngf : RngS),
      sampleLoop cols rows nrMines start fuel M rng = some (Mf, rngf) →
      M.card ≤ nrMines →
      (0 < cols → 0 < rows → (∀ p ∈ M, p.1 < cols ∧ p.2 < rows) →
        ∀ p ∈ Mf, p.1 < cols ∧ p.2 < rows) ∧
      Mf.card = nrMines ∧ (start ∉ M → start ∉ Mf) := by
  intro fuel
  induction fuel with
  | zero =>
    intro M rng Mf rngf h hcard
    rw [sampleLoop] at h
    by_cases hlt : M.card < nrMines
    · rw [if_pos hlt] at h
      exact Option.noConfusion h
    · rw [if_neg hlt] at h
      obtain ⟨h1, h2⟩ := Prod.mk.injEq .. ▸ Option.some.inj h
      subst h1
      exact ⟨fun _ _ hg => hg, by omega, fun hs => hs⟩
  | succ f ih =>
    intro M rng Mf rngf h hcard
    rw [sampleLoop] at h
    by_cases hlt : M.card < nrMines
    · rw [if_pos hlt] at h
      simp only at h
      set x := (randomRange rng cols).1 with hx
      set y := (randomRange (randomRange rng cols).2 rows).1 with hy
      by_cases hne : (x, y) ≠ start
      · rw [if_pos hne] at h
        have hcard1 : (insert (x, y) M).card ≤ nrMines := by
          have := Finset.card_insert_le (x, y) M
          omega
        obtain ⟨hg, hc, hs⟩ := ih (insert (x, y) M) _ Mf rngf h hcard1
        refine ⟨?_, hc, ?_⟩
        · intro hcpos hrpos hMg
          refine hg hcpos hrpos ?_
          intro p hp
          rcases Finset.mem_insert.mp hp with hpeq | hpM
          · subst hpeq
            constructor
            · exact Nat.mod_lt _ hcpos
            · exact Nat.mod_lt _ hrpos
          · exact hMg p hpM
        · intro hstart
          refine hs ?_
          intro hmem
          rcases Finset.mem_insert.mp hmem with heq | hM
          · exact hne heq.symm
          · exact hstart hM
      · rw [if_neg hne] at h
        exact ih M _ Mf rngf h hcard
    · rw [if_neg hlt] at h
      obtain ⟨h1, h2⟩ := Prod.mk.injEq .. ▸ Option.some.inj h
      subst h1
      exact ⟨fun _ _ hg => hg, by omega, fun hs => hs⟩

/-- Claim C5: once `init_mines` returns on a board satisfying the
construction precondition, the mine set holds exactly `nr_mines` distinct
in-grid positions, excludes the start position, and no `open` or `flag`
call on any board ever changes the mine set. -/
theorem init_mines_mine_set (b : Board) (start : Pos) (seed : Option Nat)
    (osRng : RngS) (fuel : Nat) (b3 : Board)
    (hsz : b.nr_mines < b.rows * b.cols)
    (h : init_mines b start seed osRng fuel = some (Except.ok b3)) :
    (∃ M, b3.mines = some M ∧ M.card = b.nr_mines ∧
      (∀ p ∈ M, p.1 < b.cols ∧ p.2 < b.rows) ∧ start ∉ M) ∧
    (∀ (c : Board) (pos : Pos),
      ((openPos c pos).2).mines = c.mines ∧ ((flag c pos).2).mines = c.mines) := by
  have hr : 0 < b.rows := by
    rcases Nat.eq_zero_or_pos b.rows with h0 | h0
    · rw [h0] at hsz; simp at hsz
    · exact h0
  have hc : 0 < b.cols := by
    rcases Nat.eq_zero_or_pos b.cols with h0 | h0
    · rw [h0] at hsz; simp at hsz
    · exact h0
  refine ⟨?_, fun c pos => ⟨openPos_mines c pos, flag_mines c pos⟩⟩
  unfold init_mines at h
  revert h
  generalize (match seed with | some s => seedFromU64 s | none => osRng) = rng0
  intro h
  unfold init_mines_with at h
  split at h
  · exact Option.noConfusion h
  · rename_i M rng' hs
    obtain ⟨hg, hcd, hst⟩ :=
      sampleLoop_spec b.cols b.rows b.nr_mines start fuel ∅ _ M rng' hs (by simp)
    have hMg : ∀ p ∈ M, p.1 < b.cols ∧ p.2 < b.rows := hg hc hr (by simp)
    have hstart : start ∉ M := hst (by simp)
    simp only at h
    split at h
    · rename_i a bb hop
      have hb3 : b3 = bb := by
        have := Option.some.inj h
        exact (Except.ok.inj this).symm
      subst hb3
      have hmm := openPos_mines
        { reset_board b with
          mines := some M
          state := GameState.OnGoing
          counts := set_counts b.rows b.cols M } start
      rw [hop] at hmm
      exact ⟨M, hmm, hcd, hMg, hstart⟩
    · rename_i e bb hop
      exact Except.noConfusion (Option.some.inj h)

/-- Claim C5 witness: a concrete completed initialization. -/
theorem init_mines_mine_set_witness :
    ∃ M, demoInitResult.mines = some M ∧ M.card = (Board.new 2 2 1).nr_mines ∧
      (∀ p ∈ M, p.1 < (Board.new 2 2 1).cols ∧ p.2 < (Board.new 2 2 1).rows) ∧
      (0, 0) ∉ M :=
  (init_mines_mine_set (Board.new 2 2 1) (0, 0) (some 0) 0 5 demoInitResult
    (by decide) rfl).1

theorem openPos_fresh_not_error (b : Board) (pos : Pos)
    (hst : b.state = GameState.OnGoing)
    (hx : pos.1 < b.cols) (hy : pos.2 < b.rows)
    (hm : pos ∉ b.mines.getD ∅)
    (hf : pos ∉ b.flagged_fields) (ho : pos ∉ b.open_fields) :
    ∀ e bb, openPos b pos = (Except.error e, bb) → False := by
  intro e bb hcontra
  have h1 : ¬(b.cols ≤ pos.1 ∨ b.rows ≤ pos.2) := by omega
  simp only [openPos, hst, if_neg h1, if_neg hm, if_neg hf, if_neg ho] at hcontra
  by_cases h5 : check_win_condition (openCascade b pos) = GameState.Won
  · rw [if_pos h5] at hcontra
    exact Except.noConfusion (congrArg Prod.fst hcontra)
  · rw [if_neg h5] at hcontra
    exact Except.noConfusion (congrArg Prod.fst hcontra)

/-- Claim C6 (amended: for an in-bounds start position): whenever
`init_mines` returns at all, the trailing `open(start_position).unwrap()`
took the `Ok` path, so the unwrap cannot panic — the start cell is
mine-free by the sampling filter and unopened and unflagged after the
reset. -/
theorem init_open_start_ok (b : Board) (start : Pos) (seed : Option Nat)
    (osRng : RngS) (fuel : Nat)
    (hx : start.1 < b.cols) (hy : start.2 < b.rows) :
    ∀ res, init_mines b start seed osRng fuel = some res →
      ∃ b3, res = Except.ok b3 := by
  intro res h
  unfold init_mines at h
  revert h
  generalize (match seed with | some s => seedFromU64 s | none => osRng) = rng0
  intro h
  unfold init_mines_with at h
  split at h
  · exact Option.noConfusion h
  · rename_i M rng' hs
    obtain ⟨hg, hcd, hstm⟩ :=
      sampleLoop_spec b.cols b.rows b.nr_mines start fuel ∅ _ M rng' hs (by simp)
    have hstart : start ∉ M := hstm (by simp)
    simp only at h
    split at h
    · rename_i a bb hop
      exact ⟨bb, (Option.some.inj h).symm⟩
    · rename_i e bb hop
      refine absurd hop fun hcontra =>
        openPos_fresh_not_error
          { reset_board b with
            mines := some M
            state := GameState.OnGoing
            counts := set_counts b.rows b.cols M } start rfl ?_ ?_ ?_ ?_ ?_ e bb hcontra
      · exact hx
      · exact hy
      · exact hstart
      · exact Finset.not_mem_empty start
      · exact Finset.not_mem_empty start

/-- Claim C6 counterexample: `init_mines` on a fresh 1×1 board with the
out-of-bounds start position (1,0) reaches the `unwrap` with an
`OutOfBounds` error, i.e. the open performed at the end of `init_mines`
does fail — the claim is false for out-of-bounds start positions. -/
theorem init_unwrap_panics :
    init_mines (Board.new 1 1 0) (1, 0) (some 0) 0 0 =
      some (Except.error OpenError.OutOfBounds) := rfl

/-- Claim C6 witness: a concrete in-bounds run returning `Ok`. -/
theorem init_open_start_ok_witness :
    ∃ b3, (Except.ok demoInitResult : Except OpenError Board) = Except.ok b3 :=
  init_open_start_ok (Board.new 2 2 1) (0, 0) (some 0) 0 5 (by decide) (by decide)
    (Except.ok demoInitResult) rfl

theorem check_win_iff (c : Board) (M : Finset Pos)
    (hst : c.state = GameState.OnGoing) (hm : c.mines = some M)
    (hcard : M.card = c.nr_mines) :
    check_win_condition c = GameState.Won ↔
      (c.flagged_fields = M ∧
        c.open_fields.card + c.flagged_fields.card = c.rows * c.cols) := by
  simp only [check_win_condition, hst, hm, Option.getD_some]
  constructor
  · intro h
    split at h
    · rename_i hcond
      split at h
      · rename_i hfl
        exact ⟨hfl, by rw [hcond.2, Nat.mul_comm]⟩
      · exact GameState.noConfusion h
    · exact GameState.noConfusion h
  · rintro ⟨hfl, hsum⟩
    have hc1 : c.flagged_fields.card = c.nr_mines := by rw [hfl, hcard]
    have hc2 : c.open_fields.card + c.flagged_fields.card = c.cols * c.rows := by
      rw [hsum, Nat.mul_comm]
    rw [if_pos ⟨hc1, hc2⟩, if_pos hfl]

/-- Claim C3: on an OnGoing board, a successful non-losing `open` and any
successful `flag` report (and transition to) Won exactly when, after the
mutation, the flagged set equals the mine set (hence has cardinality
`nr_mines`) and the opened and flagged cells together count `rows*cols`;
any other configuration stays OnGoing.  The hypotheses are the invariants
of reachable boards: the mine set is in-grid, the opened set is in-grid,
and no mine is opened. -/
theorem win_iff (b : Board) (M : Finset Pos)
    (hst : b.state = GameState.OnGoing)
    (hm : b.mines = some M)
    (hcard : M.card = b.nr_mines)
    (hMg : ∀ p ∈ M, p.1 < b.cols ∧ p.2 < b.rows)
    (hOg : ∀ p ∈ b.open_fields, p.1 < b.cols ∧ p.2 < b.rows)
    (hMO : ∀ p ∈ M, p ∉ b.open_fields) :
    (∀ pos g b2, openPos b pos = (Except.ok g, b2) → g ≠ GameState.Lost →
      ((g = GameState.Won ∧ b2.state = GameState.Won) ∨
        (g = GameState.OnGoing ∧ b2.state = GameState.OnGoing)) ∧
      (g = GameState.Won ↔ (b2.flagged_fields = M ∧
        b2.open_fields.card + b2.flagged_fields.card = b.rows * b.cols))) ∧
    (∀ pos g b2, flag b pos = (Except.ok g, b2) →
      ((g = GameState.Won ∧ b2.state = GameState.Won) ∨
        (g = GameState.OnGoing ∧ b2.state = GameState.OnGoing)) ∧
      (g = GameState.Won ↔ (b2.flagged_fields = M ∧
        b2.open_fields.card + b2.flagged_fields.card = b.rows * b.cols))) := by
  constructor
  · intro pos g b2 hres hnl
    simp only [openPos, hst, hm, Option.getD_some] at hres
    by_cases h1 : b.cols ≤ pos.1 ∨ b.rows ≤ pos.2
    · rw [if_pos h1] at hres
      exact Except.noConfusion (congrArg Prod.fst hres)
    · rw [if_neg h1] at hres
      by_cases h2 : pos ∈ M
      · rw [if_pos h2] at hres
        rw [Prod.mk.injEq] at hres
        exact absurd (Except.ok.inj hres.1).symm hnl
      · rw [if_neg h2] at hres
        by_cases h3 : pos ∈ b.flagged_fields
        · rw [if_pos h3] at hres
          exact Except.noConfusion (congrArg Prod.fst hres)
        · rw [if_neg h3] at hres
          by_cases h4 : pos ∈ b.open_fields
          · rw [if_pos h4] at hres
            exact Except.noConfusion (congrArg Prod.fst hres)
          · rw [if_neg h4] at hres
            have hocst : (openCascade b pos).state = GameState.OnGoing := by
              rw [openCascade_state]; exact hst
            have hocm : (openCascade b pos).mines = some M := by
              rw [openCascade_mines]; exact hm
            have hocn : M.card = (openCascade b pos).nr_mines := by
              rw [(openCascade_dims b pos).2.2]; exact hcard
            have hdims := openCascade_dims b pos
            split at hres
            · rename_i h5
              rw [Prod.mk.injEq] at hres
              obtain ⟨hres1, hres2⟩ := hres
              have hg := Except.ok.inj hres1
              subst hg
              subst hres2
              refine ⟨Or.inl ⟨rfl, rfl⟩, ?_⟩
              have hrhs := (check_win_iff (openCascade b pos) M hocst hocm hocn).mp h5
              constructor
              · intro _
                refine ⟨hrhs.1, ?_⟩
                rw [← hdims.1, ← hdims.2.1]
                exact hrhs.2
              · intro _; rfl
            · rename_i h5
              rw [Prod.mk.injEq] at hres
              obtain ⟨hres1, hres2⟩ := hres
              have hg := Except.ok.inj hres1
              subst hg
              subst hres2
              refine ⟨Or.inr ⟨rfl, hocst⟩, ?_⟩
              constructor
              · intro hcon; exact GameState.noConfusion hcon
              · rintro ⟨hfl2, hsum2⟩
                exfalso
                refine h5 ((check_win_iff (openCascade b pos) M hocst hocm hocn).mpr
                  ⟨hfl2, ?_⟩)
                rw [hdims.1, hdims.2.1]
                exact hsum2
  · intro pos g b2 hres
    simp only [flag, hst] at hres
    by_cases h1 : b.cols ≤ pos.1 ∨ b.rows ≤ pos.2
    · rw [if_pos h1] at hres
      exact Except.noConfusion (congrArg Prod.fst hres)
    · rw [if_neg h1] at hres
      by_cases h2 : pos ∈ b.open_fields
      · rw [if_pos h2] at hres
        exact Except.noConfusion (congrArg Prod.fst hres)
      · rw [if_neg h2] at hres
        by_cases h3 : pos ∈ b.flagged_fields
        · rw [if_pos h3] at hres
          rw [Prod.mk.injEq] at hres
          obtain ⟨hres1, hres2⟩ := hres
          have hg := Except.ok.inj hres1
          subst hg
          subst hres2
          refine ⟨Or.inr ⟨rfl, rfl⟩, ?_⟩
          constructor
          · intro hcon; exact GameState.noConfusion hcon
          · rintro ⟨hfl2, hsum2⟩
            exfalso
            dsimp only at hfl2 hsum2
            have hb1 : pos.1 < b.cols := by omega
            have hb2 : pos.2 < b.rows := by omega
            have hdisj : Disjoint b.open_fields M := Finset.disjoint_right.mpr hMO
            have hsub : b.open_fields ∪ M ⊆
                Finset.range b.cols ×ˢ Finset.range b.rows := by
              intro q hq
              rcases Finset.mem_union.mp hq with hqo | hqm
              · obtain ⟨hq1, hq2⟩ := hOg q hqo
                exact Finset.mem_product.mpr
                  ⟨Finset.mem_range.mpr hq1, Finset.mem_range.mpr hq2⟩
              · obtain ⟨hq1, hq2⟩ := hMg q hqm
                exact Finset.mem_product.mpr
                  ⟨Finset.mem_range.mpr hq1, Finset.mem_range.mpr hq2⟩
            have hcardM : (b.flagged_fields.erase pos).card = M.card := by rw [hfl2]
            have hcards : b.open_fields.card + M.card = b.rows * b.cols := by
              rw [← hcardM]
              exact hsum2
            have hcardg : (Finset.range b.cols ×ˢ Finset.range b.rows).card =
                b.rows * b.cols := by
              rw [Finset.card_product, Finset.card_range, Finset.card_range,
                Nat.mul_comm]
            have hunion : b.open_fields ∪ M =
                Finset.range b.cols ×ˢ Finset.range b.rows := by
              refine Finset.eq_of_subset_of_card_le hsub ?_
              rw [hcardg, Finset.card_union_of_disjoint hdisj, hcards]
            have hposg : pos ∈ Finset.range b.cols ×ˢ Finset.range b.rows :=
              Finset.mem_product.mpr
                ⟨Finset.mem_range.mpr hb1, Finset.mem_range.mpr hb2⟩
            rw [← hunion] at hposg
            rcases Finset.mem_union.mp hposg with hpo | hpm
            · exact h2 hpo
            · rw [← hfl2] at hpm
              exact Finset.not_mem_erase pos b.flagged_fields hpm
        · rw [if_neg h3] at hres
          split at hres
          · rename_i h5
            rw [Prod.mk.injEq] at hres
            obtain ⟨hres1, hres2⟩ := hres
            have hg := Except.ok.inj hres1
            subst hg
            subst hres2
            refine ⟨Or.inl ⟨rfl, rfl⟩, ?_⟩
            have hrhs := (check_win_iff
              { rows := b.rows, cols := b.cols, nr_mines := b.nr_mines,
                mines := b.mines, open_fields := b.open_fields,
                flagged_fields := insert pos b.flagged_fields, counts := b.counts,
                state := GameState.OnGoing } M rfl hm hcard).mp h5
            exact ⟨fun _ => hrhs, fun _ => rfl⟩
          · rename_i h5
            rw [Prod.mk.injEq] at hres
            obtain ⟨hres1, hres2⟩ := hres
            have hg := Except.ok.inj hres1
            subst hg
            subst hres2
            refine ⟨Or.inr ⟨rfl, rfl⟩, ?_⟩
            constructor
            · intro hcon; exact GameState.noConfusion hcon
            · rintro ⟨hfl2, hsum2⟩
              exact absurd ((check_win_iff
                { rows := b.rows, cols := b.cols, nr_mines := b.nr_mines,
                  mines := b.mines, open_fields := b.open_fields,
                  flagged_fields := insert pos b.flagged_fields, counts := b.counts,
                  state := GameState.OnGoing } M rfl hm hcard).mpr ⟨hfl2, hsum2⟩) h5

/-- Claim C3 witness: flagging the last mine of a 2×1 board with its only
safe cell already open wins the game. -/
theorem win_iff_witness :
    ({ demoWinFlag with
      flagged_fields := insert (0, 0) demoWinFlag.flagged_fields
      state := GameState.Won } : Board).flagged_fields = ({(0, 0)} : Finset Pos) ∧
    flag demoWinFlag (0, 0) =
      (Except.ok GameState.Won,
        { demoWinFlag with
          flagged_fields := insert (0, 0) demoWinFlag.flagged_fields
          state := GameState.Won }) := by
  have h := ((win_iff demoWinFlag {(0, 0)} rfl rfl (by decide) (by decide) (by decide)
    (by decide)).2 (0, 0) GameState.Won
    { demoWinFlag with
      flagged_fields := insert (0, 0) demoWinFlag.flagged_fields
      state := GameState.Won } rfl).2.mp rfl
  exact ⟨h.1, rfl⟩

/-- Claim C1 is violated by the code: on a reachable 7×1 board with the
single mine at (3,0), opening (0,0) cascades `open_fields` to
`{0,1,2}×{0}`, flagging the zero-count cell (6,0) keeps the two sets
disjoint, but the subsequent `open (5,0)` — returning Ok — cascades into
the flagged cell (6,0) and inserts it into `open_fields` (the cascade
checks `seen`, the mine set and `open_fields`, but never
`flagged_fields`), so afterwards the sets intersect. -/
theorem cascade_opens_flagged_cell :
    (openPos demoBug (0, 0)).1 = Except.ok GameState.OnGoing ∧
    (flag (openPos demoBug (0, 0)).2 (6, 0)).1 = Except.ok GameState.OnGoing ∧
    (flag (openPos demoBug (0, 0)).2 (6, 0)).2.open_fields ∩
      (flag (openPos demoBug (0, 0)).2 (6, 0)).2.flagged_fields = ∅ ∧
    (openPos (flag (openPos demoBug (0, 0)).2 (6, 0)).2 (5, 0)).1 =
      Except.ok GameState.OnGoing ∧
    (6, 0) ∈ (openPos (flag (openPos demoBug (0, 0)).2 (6, 0)).2 (5, 0)).2.open_fields ∧
    (6, 0) ∈ (openPos (flag (openPos demoBug (0, 0)).2 (6, 0)).2 (5, 0)).2.flagged_fields :=
  ⟨rfl, rfl, by decide, rfl, by decide, by decide⟩

theorem btInsert_mem (p : Pos) (l : List Pos) (a : Pos) :
    a ∈ btInsert p l ↔ a = p ∨ a ∈ l := by
  induction l with
  | nil => simp [btInsert]
  | cons q rest ih =>
    unfold btInsert
    by_cases h1 : p = q
    · subst h1
      rw [if_pos rfl]
      simp only [List.mem_cons]
      tauto
    · rw [if_neg h1]
      by_cases h2 : posLt p q
      · rw [if_pos h2]
        simp only [List.mem_cons]
      · rw [if_neg h2]
        simp only [List.mem_cons, ih]
        tauto

theorem btInsert_length (p : Pos) (l : List Pos) :
    (btInsert p l).length ≤ l.length + 1 := by
  induction l with
  | nil => simp [btInsert]
  | cons q rest ih =>
    unfold btInsert
    by_cases h1 : p = q
    · rw [if_pos h1]; simp
    · rw [if_neg h1]
      by_cases h2 : posLt p q
      · rw [if_pos h2]; simp
      · rw [if_neg h2]
        simp only [List.length_cons]
        omega

theorem frontier_fold_mem (seen1 : List Pos) (openF : Finset Pos) :
    ∀ (l acc : List Pos) (a : Pos),
      a ∈ List.foldl
        (fun acc i => if i ∉ seen1 ∧ i ∉ openF then btInsert i acc else acc) acc l →
      a ∈ acc ∨ a ∈ l := by
  intro l
  induction l with
  | nil => intro acc a h; exact Or.inl h
  | cons q rest ih =>
    intro acc a h
    simp only [List.foldl_cons] at h
    rcases ih _ a h with hacc | hrest
    · by_cases hc : q ∉ seen1 ∧ q ∉ openF
      · rw [if_pos hc] at hacc
        rcases (btInsert_mem q acc a).mp hacc with heq | hacc2
        · exact Or.inr (by simp [heq])
        · exact Or.inl hacc2
      · rw [if_neg hc] at hacc
        exact Or.inl hacc
    · exact Or.inr (List.mem_cons_of_mem _ hrest)

theorem frontier_fold_length (seen1 : List Pos) (openF : Finset Pos) :
    ∀ (l acc : List Pos),
      (List.foldl
        (fun acc i => if i ∉ seen1 ∧ i ∉ openF then btInsert i acc else acc) acc l).length ≤
      acc.length + l.length := by
  intro l
  induction l with
  | nil => intro acc; simp
  | cons q rest ih =>
    intro acc
    simp only [List.foldl_cons, List.length_cons]
    refine Nat.le_trans (ih _) ?_
    by_cases hc : q ∉ seen1 ∧ q ∉ openF
    · rw [if_pos hc]
      have := btInsert_length q acc
      omega
    · rw [if_neg hc]
      omega

theorem iter_neighbors_bounds (rows cols : Nat) (p q : Pos)
    (h : q ∈ iter_neighbors rows cols p) : q.1 < cols ∧ q.2 < rows := by
  unfold iter_neighbors at h
  simp only [List.mem_map, List.mem_filter, decide_eq_true_eq] at h
  obtain ⟨r, ⟨_, h1, h2, h3, h4, _⟩, rfl⟩ := h
  constructor
  · omega
  · omega

theorem iter_neighbors_length (rows cols : Nat) (p : Pos) :
    (iter_neighbors rows cols p).length ≤ 8 := by
  unfold iter_neighbors
  rw [List.length_map]
  refine Nat.le_trans (List.length_filter_le _ _) ?_
  rw [List.length_map]
  rfl

theorem nodup_grid_length (cols rows : Nat) (l : List Pos) (hnd : l.Nodup)
    (hg : ∀ p ∈ l, p.1 < cols ∧ p.2 < rows) : l.length ≤ rows * cols := by
  have hsub : l.toFinset ⊆ Finset.range cols ×ˢ Finset.range rows := by
    intro p hp
    obtain ⟨h1, h2⟩ := hg p (List.mem_toFinset.mp hp)
    exact Finset.mem_product.mpr ⟨Finset.mem_range.mpr h1, Finset.mem_range.mpr h2⟩
  have hle := Finset.card_le_card hsub
  rw [List.toFinset_card_of_nodup hnd, Finset.card_product, Finset.card_range,
    Finset.card_range, Nat.mul_comm] at hle
  exact hle

/-- Claim C7: the cascade loop terminates — with the fuel used by `open`
it always returns (frontier exhausted), and the positions actually
processed (marked seen) are pairwise distinct in-grid cells, hence at
most `rows*cols` of them. -/
theorem cascadeLoop_terminates (rows cols : Nat) (mines openF : Finset Pos)
    (counts : Pos → Nat) :
    ∀ (fuel : Nat) (next seen toOpen : List Pos),
      seen.Nodup →
      (∀ p ∈ seen, p.1 < cols ∧ p.2 < rows) →
      (∀ p ∈ next, p.1 < cols ∧ p.2 < rows) →
      (rows * cols + 9) * (rows * cols + 1 - seen.length) + next.length ≤ fuel →
      ∃ seenF toOpenF,
        cascadeLoop rows cols mines openF counts fuel next seen toOpen =
          some (seenF, toOpenF) ∧ seenF.length ≤ rows * cols := by
  intro fuel
  induction fuel with
  | zero =>
    intro next seen toOpen hnd hsg hng hb
    cases next with
    | nil =>
      exact ⟨seen, toOpen, rfl, nodup_grid_length cols rows seen hnd hsg⟩
    | cons n rest =>
      exfalso
      simp only [List.length_cons] at hb
      generalize (rows * cols + 9) * (rows * cols + 1 - seen.length) = A at hb
      omega
  | succ f ih =>
    intro next seen toOpen hnd hsg hng hb
    cases next with
    | nil =>
      exact ⟨seen, toOpen, rfl, nodup_grid_length cols rows seen hnd hsg⟩
    | cons n rest =>
      have hslen : seen.length ≤ rows * cols := nodup_grid_length cols rows seen hnd hsg
      have hnb := hng n (List.mem_cons_self n rest)
      have hrestg : ∀ p ∈ rest, p.1 < cols ∧ p.2 < rows :=
        fun p hp => hng p (List.mem_cons_of_mem n hp)
      simp only [cascadeLoop]
      by_cases hseen : n ∈ seen
      · rw [if_pos hseen]
        refine ih rest seen toOpen hnd hsg hrestg ?_
        simp only [List.length_cons] at hb
        generalize (rows * cols + 9) * (rows * cols + 1 - seen.length) = A at hb ⊢
        omega
      · rw [if_neg hseen]
        have hnd1 : (seen ++ [n]).Nodup := by
          rw [List.nodup_append]
          refine ⟨hnd, List.nodup_singleton n, ?_⟩
          intro a ha hmem
          simp only [List.mem_singleton] at hmem
          subst hmem
          exact hseen ha
        have hsg1 : ∀ p ∈ seen ++ [n], p.1 < cols ∧ p.2 < rows := by
          intro p hp
          rcases List.mem_append.mp hp with h | h
          · exact hsg p h
          · simp only [List.mem_singleton] at h
            subst h
            exact hnb
        have hslen1 : (seen ++ [n]).length = seen.length + 1 := by simp
        have hslenle : seen.length + 1 ≤ rows * cols := by
          have := nodup_grid_length cols rows (seen ++ [n]) hnd1 hsg1
          rw [hslen1] at this
          exact this
        have hexp : (rows * cols + 9) * (rows * cols + 1 - seen.length) =
            (rows * cols + 9) * (rows * cols + 1 - (seen.length + 1)) +
              (rows * cols + 9) := by
          have h1 : rows * cols + 1 - seen.length =
              (rows * cols + 1 - (seen.length + 1)) + 1 := by omega
          rw [h1, Nat.mul_succ]
        simp only [List.length_cons] at hb
        rw [hexp] at hb
        by_cases hmine : n ∈ mines
        · rw [if_pos hmine]
          refine ih rest (seen ++ [n]) toOpen hnd1 hsg1 hrestg ?_
          rw [hslen1]
          generalize (rows * cols + 9) * (rows * cols + 1 - (seen.length + 1)) = A
            at hb ⊢
          omega
        · rw [if_neg hmine]
          by_cases hopf : n ∈ openF
          · rw [if_pos hopf]
            refine ih rest (seen ++ [n]) toOpen hnd1 hsg1 hrestg ?_
            rw [hslen1]
            generalize (rows * cols + 9) * (rows * cols + 1 - (seen.length + 1)) = A
              at hb ⊢
            omega
          · rw [if_neg hopf]
            by_cases hcnt : counts n ≠ 0
            · rw [if_pos hcnt]
              refine ih rest (seen ++ [n]) (toOpen ++ [n]) hnd1 hsg1 hrestg ?_
              rw [hslen1]
              generalize (rows * cols + 9) * (rows * cols + 1 - (seen.length + 1)) = A
                at hb ⊢
              omega
            · rw [if_neg hcnt]
              refine ih _ (seen ++ [n]) (toOpen ++ [n]) hnd1 hsg1 ?_ ?_
              · intro p hp
                rcases frontier_fold_mem (seen ++ [n]) openF
                    (iter_neighbors rows cols n) rest p hp with h | h
                · exact hrestg p h
                · exact iter_neighbors_bounds rows cols n p h
              · rw [hslen1]
                have hflen := frontier_fold_length (seen ++ [n]) openF
                  (iter_neighbors rows cols n) rest
                have hnlen := iter_neighbors_length rows cols n
                generalize (rows * cols + 9) * (rows * cols + 1 - (seen.length + 1)) = A
                  at hb ⊢
                omega

/-- Claim C7 witness: a concrete cascade run within the stated bound. -/
theorem cascadeLoop_terminates_witness :
    ∃ seenF toOpenF,
      cascadeLoop 1 2 ∅ ∅ (fun _ => 0) 34 [(0, 0)] [] [] =
        some (seenF, toOpenF) ∧ seenF.length ≤ 1 * 2 :=
  cascadeLoop_terminates 1 2 ∅ ∅ (fun _ => 0) 34 [(0, 0)] [] []
    List.nodup_nil (by decide) (by decide) (by decide)

theorem mem_toL (s : Finset Pos) (p : Pos) : p ∈ toL s ↔ p ∈ s :=
  Finset.mem_sort posLe

theorem setCell_length (g : List (List Square)) (y x : Nat) (sq : Square) :
    (setCell g y x sq).length = g.length :=
  List.length_set ..

theorem setCell_getD (g : List (List Square)) (y x : Nat) (sq : Square) (i : Nat) :
    (setCell g y x sq).getD i [] =
      if y = i ∧ y < g.length then (g.getD y []).set x sq else g.getD i [] := by
  unfold setCell
  rw [List.getD_eq_getElem?_getD, List.getElem?_set]
  by_cases h1 : y = i
  · subst h1
    by_cases h2 : y < g.length
    · rw [if_pos rfl, if_pos h2, if_pos ⟨rfl, h2⟩]
      rfl
    · rw [if_pos rfl, if_neg h2, if_neg (by tauto)]
      rw [List.getD_eq_getElem?_getD, List.getElem?_eq_none (by omega)]
  · rw [if_neg h1, if_neg (by tauto)]
    rw [List.getD_eq_getElem?_getD]

theorem setCell_getD_length (g : List (List Square)) (y x : Nat) (sq : Square)
    (i : Nat) :
    ((setCell g y x sq).getD i []).length = (g.getD i []).length := by
  rw [setCell_getD]
  by_cases h : y = i ∧ y < g.length
  · rw [if_pos h, List.length_set, h.1]
  · rw [if_neg h]

theorem getCell_setCell (g : List (List Square)) (y x : Nat) (sq : Square)
    (x2 y2 : Nat) :
    getCell (setCell g y x sq) x2 y2 =
      if y = y2 ∧ x = x2 ∧ y < g.length ∧ x < (g.getD y []).length then some sq
      else getCell g x2 y2 := by
  unfold getCell
  rw [setCell_getD]
  by_cases h1 : y = y2 ∧ y < g.length
  · obtain ⟨h1a, h1b⟩ := h1
    subst h1a
    rw [if_pos ⟨rfl, h1b⟩, List.getElem?_set]
    by_cases h2 : x = x2
    · subst h2
      by_cases h3 : x < (g.getD y []).length
      · rw [if_pos rfl, if_pos h3, if_pos ⟨rfl, rfl, h1b, h3⟩]
      · rw [if_pos rfl, if_neg h3, if_neg (by tauto), List.getElem?_eq_none (by omega)]
    · rw [if_neg h2, if_neg (by tauto)]
  · rw [if_neg h1, if_neg (by tauto)]

theorem paintPass_shape (v : Pos → Square) (l : List Pos) :
    ∀ g : List (List Square),
      (paintPass v l g).length = g.length ∧
      ∀ i, ((paintPass v l g).getD i []).length = (g.getD i []).length := by
  induction l with
  | nil => intro g; exact ⟨rfl, fun _ => rfl⟩
  | cons p rest ih =>
    intro g
    unfold paintPass at ih ⊢
    simp only [List.foldl_cons]
    obtain ⟨hl, hr⟩ := ih (setCell g p.2 p.1 (v p))
    refine ⟨?_, fun i => ?_⟩
    · rw [hl, setCell_length]
    · rw [hr i, setCell_getD_length]

theorem getCell_paintPass (v : Pos → Square) (rows cols : Nat) (l : List Pos) :
    ∀ g : List (List Square), g.length = rows →
      (∀ i, i < rows → (g.getD i []).length = cols) →
      ∀ x y, x < cols → y < rows →
        getCell (paintPass v l g) x y =
          if (x, y) ∈ l then some (v (x, y)) else getCell g x y := by
  induction l with
  | nil =>
    intro g _ _ x y _ _
    simp [paintPass]
  | cons p rest ih =>
    intro g hlen hrow x y hx hy
    unfold paintPass at ih ⊢
    simp only [List.foldl_cons]
    have hlen1 : (setCell g p.2 p.1 (v p)).length = rows := by
      rw [setCell_length, hlen]
    have hrow1 : ∀ i, i < rows → ((setCell g p.2 p.1 (v p)).getD i []).length = cols := by
      intro i hi
      rw [setCell_getD_length]
      exact hrow i hi
    rw [ih (setCell g p.2 p.1 (v p)) hlen1 hrow1 x y hx hy, getCell_setCell]
    by_cases hrest : (x, y) ∈ rest
    · rw [if_pos hrest, if_pos (List.mem_cons_of_mem p hrest)]
    · rw [if_neg hrest]
      by_cases hp : p = (x, y)
      · have hcond : p.2 = y ∧ p.1 = x ∧ p.2 < g.length ∧
            p.1 < (g.getD p.2 []).length := by
          subst hp
          refine ⟨rfl, rfl, ?_, ?_⟩
          · rw [hlen]; exact hy
          · show x < (g.getD y []).length
            rw [hrow y hy]; exact hx
        rw [if_pos hcond, if_pos (hp ▸ List.mem_cons_self p rest)]
        subst hp
        rfl
      · have hcond : ¬(p.2 = y ∧ p.1 = x ∧ p.2 < g.length ∧
            p.1 < (g.getD p.2 []).length) := by
          rintro ⟨ha, hb2, _, _⟩
          exact hp (Prod.ext hb2 ha)
        have hmem : ¬(x, y) ∈ p :: rest := by
          intro hmem
          rcases List.mem_cons.mp hmem with heq | hmemr
          · exact hp heq.symm
          · exact hrest hmemr
        rw [if_neg hcond, if_neg hmem]

theorem replicate_grid_getD (rows cols : Nat) (i : Nat) (hi : i < rows) :
    ((List.replicate rows (List.replicate cols Square.NotYetOpened)).getD i []) =
      List.replicate cols Square.NotYetOpened := by
  rw [List.getD_eq_getElem?_getD, List.getElem?_replicate_of_lt hi, Option.getD_some]

/-- Claim C9: `get_board_state` returns a rows×cols grid in which (for an
Init board every cell is NotYetOpened and otherwise) each in-range cell
carries: `Flag` if flagged (applied last, overriding everything), else
`Mine` if the state is Lost and the cell is a mine, else `Opened(count)`
(count defaulting to 0) if opened, else `NotYetOpened` — exactly the
overwrite order opened pass, Lost-only mine pass, flag pass.  The bounds
hypotheses state that the three sets only hold in-grid cells, which is
what keeps the source's `map[y][x]` writes from panicking. -/
theorem get_board_state_spec (b : Board)
    (_hO : ∀ p ∈ b.open_fields, p.1 < b.cols ∧ p.2 < b.rows)
    (_hF : ∀ p ∈ b.flagged_fields, p.1 < b.cols ∧ p.2 < b.rows)
    (_hM : ∀ p ∈ b.mines.getD ∅, p.1 < b.cols ∧ p.2 < b.rows) :
    (get_board_state b).length = b.rows ∧
    (∀ row ∈ get_board_state b, row.length = b.cols) ∧
    (∀ x y, x < b.cols → y < b.rows →
      getCell (get_board_state b) x y = some (projSquareSpec b (x, y))) := by
  by_cases hInit : b.state = GameState.Init
  · have hgbs : get_board_state b =
        List.replicate b.rows (List.replicate b.cols Square.NotYetOpened) := by
      unfold get_board_state
      rw [if_pos hInit]
    rw [hgbs]
    refine ⟨List.length_replicate .., ?_, ?_⟩
    · intro row hrow
      rw [List.eq_of_mem_replicate hrow, List.length_replicate]
    · intro x y hx hy
      unfold getCell projSquareSpec
      rw [if_pos hInit, replicate_grid_getD b.rows b.cols y hy,
        List.getElem?_replicate_of_lt hx]
  · have hgbs : get_board_state b =
        paintPass (fun _ => Square.Flag) (toL b.flagged_fields)
          (if b.state = GameState.Lost then
            paintPass (fun _ => Square.Mine) (toL (b.mines.getD ∅))
              (paintPass (fun p => Square.Opened (b.counts p)) (toL b.open_fields)
                (List.replicate b.rows (List.replicate b.cols Square.NotYetOpened)))
          else
            paintPass (fun p => Square.Opened (b.counts p)) (toL b.open_fields)
              (List.replicate b.rows (List.replicate b.cols Square.NotYetOpened))) := by
      unfold get_board_state
      rw [if_neg hInit]
    have h0len : (List.replicate b.rows
        (List.replicate b.cols Square.NotYetOpened)).length = b.rows :=
      List.length_replicate ..
    have h0row : ∀ i, i < b.rows →
        ((List.replicate b.rows (List.replicate b.cols Square.NotYetOpened)).getD
          i []).length = b.cols := by
      intro i hi
      rw [replicate_grid_getD b.rows b.cols i hi, List.length_replicate]
    have h0cell : ∀ x y, x < b.cols → y < b.rows →
        getCell (List.replicate b.rows (List.replicate b.cols Square.NotYetOpened))
          x y = some Square.NotYetOpened := by
      intro x y hx hy
      unfold getCell
      rw [replicate_grid_getD b.rows b.cols y hy, List.getElem?_replicate_of_lt hx]
    have h1 := paintPass_shape (fun p => Square.Opened (b.counts p))
      (toL b.open_fields)
      (List.replicate b.rows (List.replicate b.cols Square.NotYetOpened))
    have h1len := h1.1.trans h0len
    have h1row : ∀ i, i < b.rows →
        ((paintPass (fun p => Square.Opened (b.counts p)) (toL b.open_fields)
          (List.replicate b.rows (List.replicate b.cols Square.NotYetOpened))).getD
            i []).length = b.cols :=
      fun i hi => (h1.2 i).trans (h0row i hi)
    have h2len : (if b.state = GameState.Lost then
        paintPass (fun _ => Square.Mine) (toL (b.mines.getD ∅))
          (paintPass (fun p => Square.Opened (b.counts p)) (toL b.open_fields)
            (List.replicate b.rows (List.replicate b.cols Square.NotYetOpened)))
      else
        paintPass (fun p => Square.Opened (b.counts p)) (toL b.open_fields)
          (List.replicate b.rows
            (List.replicate b.cols Square.NotYetOpened))).length = b.rows := by
      split
      · exact ((paintPass_shape _ _ _).1).trans h1len
      · exact h1len
    have h2row : ∀ i, i < b.rows →
        ((if b.state = GameState.Lost then
          paintPass (fun _ => Square.Mine) (toL (b.mines.getD ∅))
            (paintPass (fun p => Square.Opened (b.counts p)) (toL b.open_fields)
              (List.replicate b.rows (List.replicate b.cols Square.NotYetOpened)))
        else
          paintPass (fun p => Square.Opened (b.counts p)) (toL b.open_fields)
            (List.replicate b.rows
              (List.replicate b.cols Square.NotYetOpened))).getD i []).length =
          b.cols := by
      intro i hi
      split
      · exact ((paintPass_shape _ _ _).2 i).trans (h1row i hi)
      · exact h1row i hi
    have hflen := paintPass_shape (fun _ => Square.Flag) (toL b.flagged_fields)
      (if b.state = GameState.Lost then
        paintPass (fun _ => Square.Mine) (toL (b.mines.getD ∅))
          (paintPass (fun p => Square.Opened (b.counts p)) (toL b.open_fields)
            (List.replicate b.rows (List.replicate b.cols Square.NotYetOpened)))
      else
        paintPass (fun p => Square.Opened (b.counts p)) (toL b.open_fields)
          (List.replicate b.rows (List.replicate b.cols Square.NotYetOpened)))
    rw [hgbs]
    refine ⟨hflen.1.trans h2len, ?_, ?_⟩
    · intro row hrow
      obtain ⟨i, hi⟩ := List.mem_iff_getElem?.mp hrow
      have hilt : i < b.rows := by
        have hlt := (List.getElem?_eq_some_iff.mp hi).1
        rw [hflen.1.trans h2len] at hlt
        exact hlt
      have hrowD : (paintPass (fun _ => Square.Flag) (toL b.flagged_fields)
          (if b.state = GameState.Lost then
            paintPass (fun _ => Square.Mine) (toL (b.mines.getD ∅))
              (paintPass (fun p => Square.Opened (b.counts p)) (toL b.open_fields)
                (List.replicate b.rows (List.replicate b.cols Square.NotYetOpened)))
          else
            paintPass (fun p => Square.Opened (b.counts p)) (toL b.open_fields)
              (List.replicate b.rows
                (List.replicate b.cols Square.NotYetOpened)))).getD i [] = row := by
        rw [List.getD_eq_getElem?_getD, hi, Option.getD_some]
      rw [← hrowD, (hflen.2 i), h2row i hilt]
    · intro x y hx hy
      rw [getCell_paintPass (fun _ => Square.Flag) b.rows b.cols
        (toL b.flagged_fields) _ h2len h2row x y hx hy]
      unfold projSquareSpec
      rw [if_neg hInit]
      by_cases hfl : (x, y) ∈ b.flagged_fields
      · rw [if_pos ((mem_toL b.flagged_fields (x, y)).mpr hfl), if_pos hfl]
      · have hfl2 : (x, y) ∉ toL b.flagged_fields :=
          fun hmem => hfl ((mem_toL b.flagged_fields (x, y)).mp hmem)
        rw [if_neg hfl2, if_neg hfl]
        by_cases hLost : b.state = GameState.Lost
        · rw [if_pos hLost]
          rw [getCell_paintPass (fun _ => Square.Mine) b.rows b.cols
            (toL (b.mines.getD ∅)) _ h1len h1row x y hx hy]
          by_cases hmn : (x, y) ∈ b.mines.getD ∅
          · rw [if_pos ((mem_toL (b.mines.getD ∅) (x, y)).mpr hmn), if_pos ⟨hLost, hmn⟩]
          · have hmn2 : (x, y) ∉ toL (b.mines.getD ∅) :=
              fun hmem => hmn ((mem_toL (b.mines.getD ∅) (x, y)).mp hmem)
            have hmn3 : ¬(b.state = GameState.Lost ∧ (x, y) ∈ b.mines.getD ∅) :=
              fun hc => hmn hc.2
            rw [if_neg hmn2, if_neg hmn3]
            rw [getCell_paintPass (fun p => Square.Opened (b.counts p)) b.rows b.cols
              (toL b.open_fields) _ h0len h0row x y hx hy]
            by_cases hop : (x, y) ∈ b.open_fields
            · rw [if_pos ((mem_toL b.open_fields (x, y)).mpr hop), if_pos hop]
            · have hop2 : (x, y) ∉ toL b.open_fields :=
                fun hmem => hop ((mem_toL b.open_fields (x, y)).mp hmem)
              rw [if_neg hop2, if_neg hop, h0cell x y hx hy]
        · rw [if_neg hLost]
          rw [getCell_paintPass (fun p => Square.Opened (b.counts p)) b.rows b.cols
            (toL b.open_fields) _ h0len h0row x y hx hy]
          have hmn3 : ¬(b.state = GameState.Lost ∧ (x, y) ∈ b.mines.getD ∅) :=
            fun hc => hLost hc.1
          rw [if_neg hmn3]
          by_cases hop : (x, y) ∈ b.open_fields
          · rw [if_pos ((mem_toL b.open_fields (x, y)).mpr hop), if_pos hop]
          · have hop2 : (x, y) ∉ toL b.open_fields :=
              fun hmem => hop ((mem_toL b.open_fields (x, y)).mp hmem)
            rw [if_neg hop2, if_neg hop, h0cell x y hx hy]

/-- Claim C9 witness: on a lost 2×1 board whose mine is flagged, the
projection shows `Flag` at the mine cell and `Opened 1` at the opened
cell. -/
theorem get_board_state_spec_witness :
    getCell (get_board_state demoProj) 0 0 = some Square.Flag ∧
    getCell (get_board_state demoProj) 1 0 = some (Square.Opened 1) := by
  have h := (get_board_state_spec demoProj (by decide) (by decide) (by decide)).2.2
  constructor
  · exact (h 0 0 (by decide) (by decide)).trans (by decide)
  · exact (h 1 0 (by decide) (by decide)).trans (by decide)

end Minesweeper
